import Mathlib

/-!
Shallow embedding of the doc-site single-page application (`src/App.jsx`).

The application is a static documentation browser: a catalog of folder
groups of file records is filtered by a search term, rendered as a sorted
file tree, and a selected file is shown in either explanation or code view.
Theme and accent state drive a document-level presentation effect and the
choice of a syntax-highlighter style table.

Every definition below is translated directly from `src/App.jsx`; theorems
settle the specification's claims about those definitions.
-/

namespace DocSite

/-- Record for a single documented file, as stored in `docData.json`:
`{path, name, explanation, code}`. -/
structure FileRecord where
  path : String
  name : String
  explanation : String
  code : String
deriving DecidableEq

/-- Folder group of the catalog: `{folder, files}`; folder "." denotes the
root group. -/
structure FolderGroup where
  folder : String
  files : List FileRecord
deriving DecidableEq

/-- Theme entry of the `THEMES` configuration array. -/
structure Theme where
  id : String
  name : String
  isDark : Bool
deriving DecidableEq

/-- Accent entry of the `ACCENTS` configuration array. -/
structure Accent where
  id : String
  name : String
  color : String
  dim : String
deriving DecidableEq

/-- The `THEMES` configuration array of `App.jsx`. -/
def THEMES : List Theme :=
  [ ⟨"light", "Light", false⟩,
    ⟨"github", "GitHub Dark", true⟩,
    ⟨"vscode", "VS Code", true⟩,
    ⟨"dracula", "Dracula", true⟩,
    ⟨"solarized", "Solarized", false⟩ ]

/-- The `ACCENTS` configuration array of `App.jsx`. -/
def ACCENTS : List Accent :=
  [ ⟨"blue", "Blue", "#2563eb", "rgba(37, 99, 235, 0.15)"⟩,
    ⟨"purple", "Purple", "#9333ea", "rgba(147, 51, 234, 0.15)"⟩,
    ⟨"emerald", "Emerald", "#059669", "rgba(5, 150, 105, 0.15)"⟩,
    ⟨"orange", "Orange", "#ea580c", "rgba(234, 88, 12, 0.15)"⟩,
    ⟨"rose", "Rose", "#e11d48", "rgba(225, 29, 72, 0.15)"⟩ ]

/-- Substring containment on strings, modelling JavaScript
`String.prototype.includes`: some suffix of `s` has `pat` as a prefix. -/
def strContains (s pat : String) : Bool :=
  (List.range (s.data.length + 1)).any (fun i => pat.data.isPrefixOf (s.data.drop i))

/-- Character-wise lowercase of a string, modelling JavaScript
`String.prototype.toLowerCase`. -/
def toLowerCase (s : String) : String :=
  ⟨s.data.map Char.toLower⟩

/-- Predicate used by the search filter: the file's display name contains
the search term as a case-insensitive substring, as in
`f.name.toLowerCase().includes(searchTerm.toLowerCase())`. -/
def matchesTerm (t : String) (f : FileRecord) : Bool :=
  strContains (toLowerCase f.name) (toLowerCase t)

/-- The `filteredData` memo of `App.jsx`: with an empty search term the raw
catalog is returned unchanged; otherwise each group's files are filtered by
case-insensitive substring match on the display name and groups left with
no files are dropped. -/
def filteredData (catalog : List FolderGroup) (searchTerm : String) : List FolderGroup :=
  if searchTerm = "" then catalog
  else
    let lowerTerm := toLowerCase searchTerm
    (catalog.map (fun group =>
      { group with files := group.files.filter (fun f => strContains (toLowerCase f.name) lowerTerm) })).filter
      (fun group => group.files.length > 0)

/-- Concatenation of the file lists of all groups of a catalog, used to
state which file records the derived view contains. -/
def allFiles : List FolderGroup → List FileRecord
  | [] => []
  | g :: gs => g.files ++ allFiles gs

/-- Stable insertion of a group into a list sorted by ascending folder-name
length; an incoming group goes before the first group whose folder name is
at least as long. -/
def insertByLen (x : FolderGroup) : List FolderGroup → List FolderGroup
  | [] => [x]
  | y :: ys =>
    if x.folder.length ≤ y.folder.length then x :: y :: ys
    else y :: insertByLen x ys

/-- Stable sort of folder groups by ascending folder-name length, modelling
`[...data].sort((a, b) => a.folder.length - b.folder.length)` of the
`FileTree` component (JavaScript `Array.prototype.sort` is stable). -/
def sortByFolderLen : List FolderGroup → List FolderGroup
  | [] => []
  | x :: xs => insertByLen x (sortByFolderLen xs)

/-- Groups shown by the `FileTree` component: the sorted groups, where the
`FolderGroup` component renders `null` for a group whose file list is empty
(`if (folder.files.length === 0) return null`). -/
def renderTree (data : List FolderGroup) : List FolderGroup :=
  (sortByFolderLen data).filter (fun g => g.files.length != 0)

/-- Style tables imported from `react-syntax-highlighter`. -/
inductive SyntaxStyle where
  | vscDarkPlus
  | ghcolors
  | dracula
  | solarizedlight
deriving DecidableEq

/-- The `getSyntaxStyle` helper of `App.jsx`. `none` models the TypeError
that the JavaScript would raise when `THEMES.find` returns `undefined` and
`activeThemeObj.isDark` is dereferenced. -/
def getSyntaxStyle (currentTheme : String) : Option SyntaxStyle :=
  if currentTheme = "dracula" then some SyntaxStyle.dracula
  else if currentTheme = "solarized" then some SyntaxStyle.solarizedlight
  else
    match THEMES.find? (fun t => t.id == currentTheme) with
    | some themeObj => some (if themeObj.isDark then SyntaxStyle.vscDarkPlus else SyntaxStyle.ghcolors)
    | none => none

/-- Observable document-level presentation context written by the theme and
accent effect: the `data-theme` attribute, the `dark` class flag, and the
two accent CSS variables. -/
structure DocState where
  dataTheme : Option String
  darkClass : Bool
  accentVar : Option String
  accentDimVar : Option String
deriving DecidableEq

/-- The theme and accent `useEffect` of `App.jsx`: sets the `data-theme`
attribute, adds or removes the `dark` class according to
`themeObj?.isDark` (an unknown theme id behaves like a light theme), and
overwrites the accent variables only when the accent id is found. -/
def applyThemeAccent (themeId accentId : String) (d : DocState) : DocState :=
  let d1 : DocState := { d with dataTheme := some themeId }
  let d2 : DocState :=
    match THEMES.find? (fun t => t.id == themeId) with
    | some themeObj => { d1 with darkClass := themeObj.isDark }
    | none => { d1 with darkClass := false }
  match ACCENTS.find? (fun a => a.id == accentId) with
  | some accentObj => { d2 with accentVar := some accentObj.color, accentDimVar := some accentObj.dim }
  | none => d2

/-- View mode of the content panel: `'explanation' | 'code'`. -/
inductive ViewMode where
  | explanation
  | code
deriving DecidableEq

/-- UI state held by the `App` component's `useState` hooks. -/
structure AppState where
  selectedFile : Option FileRecord
  viewMode : ViewMode
  currentTheme : String
  currentAccent : String
  searchTerm : String
  sidebarWidth : Int
  isResizing : Bool
  mobileMenuOpen : Bool
deriving DecidableEq

/-- Initial state of the `App` component: no selection, explanation mode,
`github` theme, `emerald` accent, empty search, sidebar width 280. -/
def initState : AppState :=
  { selectedFile := none
    viewMode := ViewMode.explanation
    currentTheme := "github"
    currentAccent := "emerald"
    searchTerm := ""
    sidebarWidth := 280
    isResizing := false
    mobileMenuOpen := false }

/-- User events the `App` component handles. Theme and accent picks are
indexed into the configuration arrays because the picker renders one button
per array entry; pointer events model the resize listeners. -/
inductive Event where
  | pickTheme (i : Fin THEMES.length)
  | pickAccent (i : Fin ACCENTS.length)
  | selectFile (f : FileRecord)
  | clickTab (m : ViewMode)
  | setSearch (t : String)
  | toggleMobile
  | closeMobile
  | pointerDown
  | pointerUp
  | pointerMove (clientX : Int)
deriving DecidableEq

/-- One step of the UI state machine: each branch is the corresponding
event handler of `App.jsx`. `pointerMove` is the `resize` handler: it
updates the width only while resizing and only when
`newWidth > 200 && newWidth < 600`. -/
def step (s : AppState) : Event → AppState
  | Event.pickTheme i => { s with currentTheme := (THEMES.get i).id }
  | Event.pickAccent i => { s with currentAccent := (ACCENTS.get i).id }
  | Event.selectFile f =>
      { s with selectedFile := some f, viewMode := ViewMode.explanation, mobileMenuOpen := false }
  | Event.clickTab m => { s with viewMode := m }
  | Event.setSearch t => { s with searchTerm := t }
  | Event.toggleMobile => { s with mobileMenuOpen := !s.mobileMenuOpen }
  | Event.closeMobile => { s with mobileMenuOpen := false }
  | Event.pointerDown => { s with isResizing := true }
  | Event.pointerUp => { s with isResizing := false }
  | Event.pointerMove clientX =>
      if s.isResizing then
        if 200 < clientX ∧ clientX < 600 then { s with sidebarWidth := clientX } else s
      else s

/-- Run the UI state machine from the initial state over a list of events. -/
def run (evs : List Event) : AppState :=
  evs.foldl step initState

/-- Call rendered in code view: `SyntaxHighlighter` receives the hard-coded
`language="csharp"`, the current syntax style, line numbers enabled, and
the selected file's `code` field as its child text. -/
structure HighlightCall where
  language : String
  style : Option SyntaxStyle
  showLineNumbers : Bool
  text : String
deriving DecidableEq

/-- The code-view branch of the content panel in `App.jsx`. -/
def codeView (currentTheme : String) (f : FileRecord) : HighlightCall :=
  { language := "csharp"
    style := getSyntaxStyle currentTheme
    showLineNumbers := true
    text := f.code }

/-- Sample file record used to instantiate hypothesised theorems. -/
def sampleFile : FileRecord := ⟨"a.cs", "a.cs", "# A", "class A"⟩

/-- Sample UI state with a file selected. -/
def sampleState : AppState := { initState with selectedFile := some sampleFile }

/-! ## Lemmas about search filtering -/

lemma strContains_empty_pat (s : String) : strContains s "" = true := by
  unfold strContains
  apply List.any_eq_true.mpr
  refine ⟨0, ?_, ?_⟩
  · exact List.mem_range.mpr (Nat.succ_pos _)
  · simp [List.isPrefixOf]

lemma matchesTerm_empty (f : FileRecord) : matchesTerm "" f = true := by
  unfold matchesTerm
  have h : toLowerCase "" = "" := rfl
  rw [h]
  exact strContains_empty_pat _

lemma filteredData_empty_term (c : List FolderGroup) : filteredData c "" = c := by
  rw [filteredData]
  simp

lemma filteredData_of_ne (c : List FolderGroup) (t : String) (ht : ¬t = "") :
    filteredData c t =
      (c.map (fun g => { g with files := g.files.filter (matchesTerm t) })).filter
        (fun g => g.files.length > 0) := by
  rw [filteredData, if_neg ht]
  rfl

lemma allFiles_filter_pos (l : List FolderGroup) :
    allFiles (l.filter (fun g => g.files.length > 0)) = allFiles l := by
  induction l with
  | nil => rfl
  | cons g gs ih =>
    by_cases h : g.files.length > 0
    · rw [List.filter_cons_of_pos (by simpa using h)]
      simp [allFiles, ih]
    · rw [List.filter_cons_of_neg (by simpa using h)]
      have hnil : g.files = [] := List.length_eq_zero.mp (Nat.eq_zero_of_not_pos h)
      simp [allFiles, hnil, ih]

lemma allFiles_map_filter (l : List FolderGroup) (p : FileRecord → Bool) :
    allFiles (l.map (fun g => { g with files := g.files.filter p })) = (allFiles l).filter p := by
  induction l with
  | nil => rfl
  | cons g gs ih => simp [allFiles, ih, List.filter_append]

/-- C1: for every search term the derived filtered catalog contains exactly
those file records whose display name contains the term as a
case-insensitive substring; every surviving group comes from a source group
with the same folder name and the matching subset of its files; and a group
of the derived view with an empty file list already existed verbatim in the
source catalog, so no group that became empty through filtering survives.
The source catalog itself is untouched: `filteredData` is a pure function
of the catalog. -/
theorem c1_filteredData_spec (c : List FolderGroup) (t : String) :
    allFiles (filteredData c t) = (allFiles c).filter (matchesTerm t) ∧
    (∀ g', g' ∈ filteredData c t →
      ∃ g, g ∈ c ∧ g'.folder = g.folder ∧ g'.files = g.files.filter (matchesTerm t)) ∧
    (∀ g', g' ∈ filteredData c t → g'.files = [] → g' ∈ c) := by
  by_cases ht : t = ""
  · subst ht
    rw [filteredData_empty_term]
    refine ⟨?_, ?_, ?_⟩
    · rw [List.filter_eq_self.mpr]
      intro f _
      exact matchesTerm_empty f
    · intro g' hg'
      refine ⟨g', hg', rfl, ?_⟩
      rw [List.filter_eq_self.mpr]
      intro f _
      exact matchesTerm_empty f
    · intro g' hg' _
      exact hg'
  · rw [filteredData_of_ne c t ht]
    refine ⟨?_, ?_, ?_⟩
    · rw [allFiles_filter_pos, allFiles_map_filter]
    · intro g' hg'
      have hmem := List.mem_of_mem_filter hg'
      obtain ⟨g, hgc, hEq⟩ := List.mem_map.mp hmem
      subst hEq
      exact ⟨g, hgc, rfl, rfl⟩
    · intro g' hg' hnil
      have hkeep := List.of_mem_filter hg'
      rw [hnil] at hkeep
      simp at hkeep

/-- Witness for C1 at a concrete catalog and search term. -/
theorem c1_witness :
    ∃ g, g ∈ [(⟨".", [sampleFile]⟩ : FolderGroup)] ∧
      (⟨".", [sampleFile]⟩ : FolderGroup).folder = g.folder ∧
      (⟨".", [sampleFile]⟩ : FolderGroup).files = g.files.filter (matchesTerm "a") :=
  (c1_filteredData_spec [(⟨".", [sampleFile]⟩ : FolderGroup)] "a").2.1
    ⟨".", [sampleFile]⟩ (by decide)

/-! ## Lemmas about the UI state machine -/

lemma width_bounds_step (s : AppState) (e : Event)
    (h1 : 200 ≤ s.sidebarWidth) (h2 : s.sidebarWidth ≤ 600) :
    200 ≤ (step s e).sidebarWidth ∧ (step s e).sidebarWidth ≤ 600 := by
  cases e <;> try exact ⟨h1, h2⟩
  case pointerMove x =>
    simp only [step]
    split_ifs with hr hx
    · exact ⟨(by omega : (200 : Int) ≤ x), (by omega : x ≤ (600 : Int))⟩
    · exact ⟨h1, h2⟩
    · exact ⟨h1, h2⟩

lemma width_bounds_foldl (evs : List Event) :
    ∀ s : AppState, 200 ≤ s.sidebarWidth → s.sidebarWidth ≤ 600 →
      200 ≤ (evs.foldl step s).sidebarWidth ∧ (evs.foldl step s).sidebarWidth ≤ 600 := by
  induction evs with
  | nil => intro s h1 h2; exact ⟨h1, h2⟩
  | cons e evs ih =>
    intro s h1 h2
    have h := width_bounds_step s e h1 h2
    exact ih (step s e) h.1 h.2

/-- C2: after any sequence of UI events, in particular any pointer-drag
resize sequence with arbitrarily far-out pointer positions, the sidebar
width stays within the range [200, 600] inclusive. -/
theorem c2_sidebar_width_bounded (evs : List Event) :
    200 ≤ (run evs).sidebarWidth ∧ (run evs).sidebarWidth ≤ 600 :=
  width_bounds_foldl evs initState (by decide) (by decide)

/-- C3: selecting any file in the tree sets the view mode to
`explanation`, whatever view mode the state held before. -/
theorem c3_select_resets_view (s : AppState) (f : FileRecord) :
    (step s (Event.selectFile f)).viewMode = ViewMode.explanation := rfl

/-- C6: clicking a view-mode tab while a file is selected never changes
`selectedFile`, and changes no state field other than `viewMode`. -/
theorem c6_tab_changes_only_view (s : AppState) (m : ViewMode) (f : FileRecord)
    (h : s.selectedFile = some f) :
    (step s (Event.clickTab m)).selectedFile = s.selectedFile ∧
    step s (Event.clickTab m) = { s with viewMode := m } :=
  ⟨rfl, rfl⟩

/-- Witness for C6 at a concrete state with a selected file. -/
theorem c6_witness :
    (step sampleState (Event.clickTab ViewMode.code)).selectedFile = sampleState.selectedFile ∧
    step sampleState (Event.clickTab ViewMode.code) = { sampleState with viewMode := ViewMode.code } :=
  c6_tab_changes_only_view sampleState ViewMode.code sampleFile rfl

lemma find_theme_of_mem {x : String} (h : x ∈ THEMES.map Theme.id) :
    (THEMES.find? (fun t => t.id == x)).isSome = true := by
  simp only [THEMES, List.map_cons, List.map_nil, List.mem_cons, List.not_mem_nil, or_false] at h
  rcases h with h | h | h | h | h <;> subst h <;> decide

lemma find_accent_of_mem {x : String} (h : x ∈ ACCENTS.map Accent.id) :
    (ACCENTS.find? (fun a => a.id == x)).isSome = true := by
  simp only [ACCENTS, List.map_cons, List.map_nil, List.mem_cons, List.not_mem_nil, or_false] at h
  rcases h with h | h | h | h | h <;> subst h <;> decide

lemma ids_mem_step (s : AppState) (e : Event)
    (h1 : s.currentTheme ∈ THEMES.map Theme.id)
    (h2 : s.currentAccent ∈ ACCENTS.map Accent.id) :
    (step s e).currentTheme ∈ THEMES.map Theme.id ∧
    (step s e).currentAccent ∈ ACCENTS.map Accent.id := by
  cases e <;> try exact ⟨h1, h2⟩
  case pickTheme i =>
    exact ⟨List.mem_map.mpr ⟨THEMES.get i, THEMES.get_mem i.1 i.2, rfl⟩, h2⟩
  case pickAccent i =>
    exact ⟨h1, List.mem_map.mpr ⟨ACCENTS.get i, ACCENTS.get_mem i.1 i.2, rfl⟩⟩
  case pointerMove x =>
    simp only [step]
    split_ifs <;> exact ⟨h1, h2⟩

lemma ids_mem_foldl (evs : List Event) :
    ∀ s : AppState, s.currentTheme ∈ THEMES.map Theme.id →
      s.currentAccent ∈ ACCENTS.map Accent.id →
      (evs.foldl step s).currentTheme ∈ THEMES.map Theme.id ∧
      (evs.foldl step s).currentAccent ∈ ACCENTS.map Accent.id := by
  induction evs with
  | nil => intro s h1 h2; exact ⟨h1, h2⟩
  | cons e evs ih =>
    intro s h1 h2
    have h := ids_mem_step s e h1 h2
    exact ih (step s e) h.1 h.2

/-- C10: in every reachable UI state the current theme id is one of the
five declared theme ids and the current accent id one of the five declared
accent ids, so `THEMES.find` and `ACCENTS.find` both succeed and the
dereferences of the found objects cannot fail. -/
theorem c10_theme_accent_lookups_safe (evs : List Event) :
    (run evs).currentTheme ∈ THEMES.map Theme.id ∧
    (run evs).currentAccent ∈ ACCENTS.map Accent.id ∧
    (THEMES.find? (fun t => t.id == (run evs).currentTheme)).isSome = true ∧
    (ACCENTS.find? (fun a => a.id == (run evs).currentAccent)).isSome = true := by
  have h := ids_mem_foldl evs initState (by decide) (by decide)
  exact ⟨h.1, h.2, find_theme_of_mem h.1, find_accent_of_mem h.2⟩

/-- C4: the highlighter style table is a function of the current theme id
alone: `dracula` yields the dracula table, `solarized` the solarized table,
and every other declared theme yields the dark default table exactly when
its declared dark flag is set, the light default table otherwise. -/
theorem c4_getSyntaxStyle_by_theme :
    getSyntaxStyle "dracula" = some SyntaxStyle.dracula ∧
    getSyntaxStyle "solarized" = some SyntaxStyle.solarizedlight ∧
    ∀ t, t ∈ THEMES → t.id ≠ "dracula" → t.id ≠ "solarized" →
      getSyntaxStyle t.id =
        some (if t.isDark then SyntaxStyle.vscDarkPlus else SyntaxStyle.ghcolors) := by
  refine ⟨by decide, by decide, ?_⟩
  intro t ht
  simp only [THEMES, List.mem_cons, List.not_mem_nil, or_false] at ht
  rcases ht with h | h | h | h | h <;> subst h <;> decide

/-- Witness for C4 at the `github` theme. -/
theorem c4_witness :
    getSyntaxStyle (Theme.mk "github" "GitHub Dark" true).id =
      some (if (Theme.mk "github" "GitHub Dark" true).isDark then SyntaxStyle.vscDarkPlus
        else SyntaxStyle.ghcolors) :=
  c4_getSyntaxStyle_by_theme.2.2 ⟨"github", "GitHub Dark", true⟩ (by decide) (by decide) (by decide)

/-- C5: a folder group whose file list is empty is absent from the rendered
tree, for every catalog and every search term including the empty one. -/
theorem c5_empty_group_not_rendered (c : List FolderGroup) (t : String) (g : FolderGroup)
    (h : g.files = []) : g ∉ renderTree (filteredData c t) := by
  intro hmem
  unfold renderTree at hmem
  have hkeep := List.of_mem_filter hmem
  rw [h] at hkeep
  simp at hkeep

/-- Witness for C5 at a concrete catalog with an empty group and the empty
search term. -/
theorem c5_witness :
    (⟨"src", []⟩ : FolderGroup) ∉ renderTree (filteredData [(⟨"src", []⟩ : FolderGroup)] "") :=
  c5_empty_group_not_rendered _ _ _ rfl

/-! ## Lemmas about the folder sort -/

lemma mem_insertByLen {a x : FolderGroup} {l : List FolderGroup} :
    a ∈ insertByLen x l ↔ a = x ∨ a ∈ l := by
  induction l with
  | nil => simp [insertByLen]
  | cons y ys ih =>
    by_cases h : x.folder.length ≤ y.folder.length
    · rw [insertByLen, if_pos h]
      simp [List.mem_cons]
    · rw [insertByLen, if_neg h]
      simp only [List.mem_cons, ih]
      tauto

lemma pairwise_insertByLen {x : FolderGroup} {l : List FolderGroup}
    (hl : l.Pairwise (fun a b => a.folder.length ≤ b.folder.length)) :
    (insertByLen x l).Pairwise (fun a b => a.folder.length ≤ b.folder.length) := by
  induction l with
  | nil => simp [insertByLen]
  | cons y ys ih =>
    rcases List.pairwise_cons.mp hl with ⟨hy, hys⟩
    by_cases h : x.folder.length ≤ y.folder.length
    · rw [insertByLen, if_pos h]
      refine List.pairwise_cons.mpr ⟨?_, hl⟩
      intro b hb
      rcases List.mem_cons.mp hb with rfl | hb
      · exact h
      · exact le_trans h (hy b hb)
    · rw [insertByLen, if_neg h]
      refine List.pairwise_cons.mpr ⟨?_, ih hys⟩
      intro b hb
      rcases mem_insertByLen.mp hb with rfl | hb
      · omega
      · exact hy b hb

lemma pairwise_sortByFolderLen (l : List FolderGroup) :
    (sortByFolderLen l).Pairwise (fun a b => a.folder.length ≤ b.folder.length) := by
  induction l with
  | nil => simp [sortByFolderLen]
  | cons x xs ih => exact pairwise_insertByLen ih

lemma pairwise_renderTree (d : List FolderGroup) :
    (renderTree d).Pairwise (fun a b => a.folder.length ≤ b.folder.length) :=
  List.Pairwise.sublist (List.filter_sublist _) (pairwise_sortByFolderLen d)

/-- C7 counterexample: a catalog holding a non-root group whose folder name
is one character long and is listed before the root group. The root group
is rendered, yet the sorted tree does not start with it, so the ordering
does not always place the root group first. -/
theorem c7_counterexample :
    ((⟨".", [⟨"y.cs", "y.cs", "", ""⟩]⟩ : FolderGroup) ∈
      renderTree
        [(⟨"a", [⟨"x.cs", "x.cs", "", ""⟩]⟩ : FolderGroup),
          ⟨".", [⟨"y.cs", "y.cs", "", ""⟩]⟩]) ∧
    ¬((renderTree
        [(⟨"a", [⟨"x.cs", "x.cs", "", ""⟩]⟩ : FolderGroup),
          ⟨".", [⟨"y.cs", "y.cs", "", ""⟩]⟩]).head?.map
        FolderGroup.folder = some ".") := by decide

/-- C7 as amended: the rendered tree is sorted by ascending folder-name
length, and whenever the root group is rendered and every other rendered
group's folder name is at least two characters long, the root group comes
first. -/
theorem c7_amended_sorted_root_first (d : List FolderGroup) :
    (renderTree d).Pairwise (fun a b => a.folder.length ≤ b.folder.length) ∧
    ((∀ g, g ∈ renderTree d → g.folder ≠ "." → 2 ≤ g.folder.length) →
      (∃ g, g ∈ renderTree d ∧ g.folder = ".") →
      ∃ g, (renderTree d).head? = some g ∧ g.folder = ".") := by
  refine ⟨pairwise_renderTree d, ?_⟩
  rintro hlong ⟨g, hg, hdot⟩
  have hp := pairwise_renderTree d
  cases hrt : renderTree d with
  | nil => rw [hrt] at hg; simp at hg
  | cons hgrp tl =>
    rw [hrt] at hg hp
    by_cases hh : hgrp.folder = "."
    · exact ⟨hgrp, rfl, hh⟩
    · exfalso
      have h2 : 2 ≤ hgrp.folder.length := by
        refine hlong hgrp ?_ hh
        rw [hrt]
        exact List.mem_cons_self _ _
      rcases List.mem_cons.mp hg with rfl | hgtl
      · exact hh hdot
      · have hle := (List.pairwise_cons.mp hp).1 g hgtl
        rw [hdot] at hle
        have hone : (".").length = 1 := rfl
        rw [hone] at hle
        omega

/-- Witness for the amended C7 at a concrete catalog whose non-root folder
names all have length at least two. -/
theorem c7_witness :
    ∃ g, (renderTree [(⟨".", [sampleFile]⟩ : FolderGroup), ⟨"src", [sampleFile]⟩]).head? = some g ∧
      g.folder = "." :=
  (c7_amended_sorted_root_first _).2 (by decide) (by decide)

/-- C8: in code view the selected file's `code` field is rendered through
the syntax highlighter with the fixed hard-coded language `csharp` and line
numbers, whatever the file's path or actual language: any two files produce
the same highlighter language. -/
theorem c8_code_view_fixed_language (th : String) (f g : FileRecord) :
    (codeView th f).language = "csharp" ∧
    (codeView th f).text = f.code ∧
    (codeView th f).showLineNumbers = true ∧
    (codeView th f).language = (codeView th g).language :=
  ⟨rfl, rfl, rfl, rfl⟩

/-- C9: applying the theme and accent effect twice with the same ids leaves
the document-level presentation context exactly as applying it once. -/
theorem c9_applyThemeAccent_idempotent (t a : String) (d : DocState) :
    applyThemeAccent t a (applyThemeAccent t a d) = applyThemeAccent t a d := by
  unfold applyThemeAccent
  cases hT : THEMES.find? (fun th => th.id == t) <;>
    cases hA : ACCENTS.find? (fun ac => ac.id == a) <;>
      simp [hT, hA]

end DocSite
